import Mathlib

/-!
Verification of the Bybit OHLCV pagination fetcher (`fetch_bybit.py`).

The Python module is shallowly embedded as follows.

* The network provider (`_make_api_request` together with the HTTP layer) is a
  parameter `provider : FetchParams → Except Err (List Row)`: it either raises
  (`Err`) or returns the decoded `result.list` rows of one page.  Rows are
  modelled with their timestamp already parsed to an integer (the code reads
  `int(data[-1][0])`); the remaining string columns are carried opaquely.
* Python truthiness on `start_timestamp`, `current_end`, `start_date` and
  `end_date` (lines 95-102, 120-125, 143, 169 of `fetch_bybit.py`) is modelled
  exactly: an integer is falsy iff it is `0`, a string iff it is empty, `None`
  is falsy.
* The unbounded `while True` loop is given a fuel parameter; `.ok none` means
  the fuel ran out (the real loop would have kept iterating), so every theorem
  about a completed run constrains the `.ok (some _)` case only.
* `datetime.now(timezone.utc)` is a parameter `now` (epoch milliseconds).
* The list of issued requests is accumulated alongside the rows so that
  call-count and cursor properties are observable.
-/

/-- Errors raised by the fetcher: `ValueError` on input validation
(`validationError`) and `requests.RequestException` for transport or
provider-side failures (`requestError`). -/
inductive Err where
  | validationError (msg : String)
  | requestError (msg : String)
  deriving Repr, DecidableEq

/-- One kline row of `result.list`.  The first column (the epoch-millisecond
timestamp) is the only one the algorithm inspects; it is kept parsed, the other
columns are carried verbatim. -/
structure Row where
  ts : Int
  rest : List String
  deriving Repr, DecidableEq, Inhabited

/-- The query-parameter dictionary built at lines 112-125 of
`fetch_bybit.py`: `start`/`end_` are present iff the corresponding key was
added to `params`. -/
structure FetchParams where
  category : String
  symbol : String
  interval : String
  limit : Nat
  start : Option Int
  end_ : Option Int
  deriving Repr, DecidableEq

/-- Result of the pagination loop: the accumulated raw rows (`all_data`) and
the requests issued, in order. -/
structure LoopOut where
  rows : List Row
  calls : List FetchParams
  deriving Repr, DecidableEq

/-- Result of `get_ohlcv`: the final assembled series (the DataFrame's rows in
order) and the requests issued. -/
structure FetchResult where
  series : List Row
  calls : List FetchParams
  deriving Repr, DecidableEq

deriving instance DecidableEq for Except

/-- `MAX_LIMIT = 1000` (line 22). -/
def MAX_LIMIT : Nat := 1000

/-- `valid_categories = ['spot', 'linear', 'inverse', 'option']` (line 87). -/
def valid_categories : List String := ["spot", "linear", "inverse", "option"]

/-- Python truthiness of `Optional[int]`: `None` and `0` are falsy. -/
def truthyOpt : Option Int → Bool
  | none => false
  | some v => v != 0

/-- Python truthiness of `Optional[str]`: `None` and `""` are falsy. -/
def truthyStr : Option String → Bool
  | none => false
  | some s => s != ""

/-- Longest leading run of decimal digits, plus the remaining characters. -/
def takeDigits : List Char → List Char × List Char
  | [] => ([], [])
  | c :: cs =>
    if c.isDigit then
      let r := takeDigits cs
      (c :: r.1, r.2)
    else ([], c :: cs)

/-- Numeric value of a digit run. -/
def natOfDigits (ds : List Char) : Nat :=
  ds.foldl (fun acc c => acc * 10 + (c.toNat - 48)) 0

/-- Read a run of one or two digits (as `strptime`'s `%m`, `%d`, `%H`, `%M`,
`%S` patterns do); a run of any other length fails the whole parse. -/
def pick12 (cs : List Char) : Option (Nat × List Char) :=
  let r := takeDigits cs
  if r.1.length == 1 || r.1.length == 2 then some (natOfDigits r.1, r.2) else none

/-- Parse a `%Y-%m-%d` prefix (`%Y` is exactly four digits) and return the
leftover characters. -/
def parseYMDPrefix (cs : List Char) : Option (Nat × Nat × Nat × List Char) :=
  let ry := takeDigits cs
  if ry.1.length == 4 then
    match ry.2 with
    | '-' :: r1 =>
      match pick12 r1 with
      | some (m, r2) =>
        match r2 with
        | '-' :: r3 =>
          match pick12 r3 with
          | some (d, r4) => some (natOfDigits ry.1, m, d, r4)
          | none => none
        | _ => none
      | none => none
    | _ => none
  else none

/-- Parse `%H:%M:%S` exactly to the end of the input. -/
def parseHMS (cs : List Char) : Option (Nat × Nat × Nat) :=
  match pick12 cs with
  | some (h, r1) =>
    match r1 with
    | ':' :: r2 =>
      match pick12 r2 with
      | some (mi, r3) =>
        match r3 with
        | ':' :: r4 =>
          match pick12 r4 with
          | some (s, r5) => if r5.isEmpty then some (h, mi, s) else none
          | none => none
        | _ => none
      | none => none
    | _ => none
  | none => none

/-- `strptime(date_str, '%Y-%m-%d')`: the whole input must be consumed. -/
def parseDateOnly (cs : List Char) : Option (Nat × Nat × Nat) :=
  match parseYMDPrefix cs with
  | some (y, m, d, r) => if r.isEmpty then some (y, m, d) else none
  | none => none

/-- Python's regex `\s` character class over `str` (CPython's `strptime`
compiles a whitespace run in the format into `\s+`): tab through carriage
return, space, the C0 separators 0x1c-0x1f, NEL, NBSP, and the Unicode space
code points. -/
def isPySpace (c : Char) : Bool :=
  (9 ≤ c.toNat && c.toNat ≤ 13) || c.toNat = 32 ||
    (28 ≤ c.toNat && c.toNat ≤ 31) || c.toNat = 133 || c.toNat = 160 ||
    c.toNat = 5760 || (8192 ≤ c.toNat && c.toNat ≤ 8202) ||
    c.toNat = 8232 || c.toNat = 8233 || c.toNat = 8239 || c.toNat = 8287 ||
    c.toNat = 12288

/-- `strptime(date_str, '%Y-%m-%d %H:%M:%S')`: the format's space is matched
as `\s+` — one or more whitespace characters — because CPython's `strptime`
rewrites whitespace runs in the format into `\s+` before compiling it. -/
def parseDateTime (cs : List Char) : Option (Nat × Nat × Nat × Nat × Nat × Nat) :=
  match parseYMDPrefix cs with
  | some (y, m, d, r) =>
    if (r.takeWhile isPySpace).isEmpty then none
    else
      match parseHMS (r.dropWhile isPySpace) with
      | some (h, mi, s) => some (y, m, d, h, mi, s)
      | none => none
  | none => none

/-- Gregorian leap-year rule. -/
def isLeapYear (y : Nat) : Bool :=
  (y % 4 == 0 && y % 100 != 0) || y % 400 == 0

/-- Days in a month, as `datetime` validates them. -/
def daysInMonth (y m : Nat) : Nat :=
  if m == 2 then (if isLeapYear y then 29 else 28)
  else if m == 4 || m == 6 || m == 9 || m == 11 then 30
  else 31

/-- The field ranges `datetime.strptime` accepts (a value outside them raises
`ValueError`, which line 200-201 converts into the invalid-format error). -/
def validYMDHMS (y m d hh mi ss : Nat) : Bool :=
  1 ≤ y && 1 ≤ m && m ≤ 12 && 1 ≤ d && d ≤ daysInMonth y m &&
    hh ≤ 23 && mi ≤ 59 && ss ≤ 59

/-- Days since 1970-01-01 of a civil date (Howard Hinnant's algorithm), the
value `datetime(...).timestamp()` is built from. -/
def daysFromCivil (y m d : Nat) : Int :=
  let yy := y - (if m ≤ 2 then 1 else 0)
  let era := yy / 400
  let yoe := yy % 400
  let mp := (m + 9) % 12
  let doy := (153 * mp + 2) / 5 + (d - 1)
  let doe := yoe * 365 + yoe / 4 - yoe / 100 + doy
  ((era * 146097 + doe : Nat) : Int) - 719468

/-- `_parse_date_to_timestamp` (lines 179-201): `'%Y-%m-%d %H:%M:%S'` when the
string contains a literal space character (the code's `' ' in date_str`),
`'%Y-%m-%d'` otherwise; UTC epoch milliseconds.  The date-time format's inner
space matches a whitespace run, per `strptime`'s `\s+` rewriting. -/
def _parse_date_to_timestamp (s : String) : Except Err Int :=
  let cs := s.toList
  let parsed : Option (Nat × Nat × Nat × Nat × Nat × Nat) :=
    if cs.contains ' ' then parseDateTime cs
    else
      match parseDateOnly cs with
      | some (y, m, d) => some (y, m, d, 0, 0, 0)
      | none => none
  match parsed with
  | some (y, m, d, hh, mi, ss) =>
    if validYMDHMS y m d hh mi ss then
      .ok ((daysFromCivil y m d * 86400 + ((hh * 3600 + mi * 60 + ss : Nat) : Int)) * 1000)
    else .error (.validationError "Invalid date format")
  | none => .error (.validationError "Invalid date format")

/-- Lines 92-96: `start_timestamp` stays `None` unless `start_date` is truthy. -/
def resolveStart (start_date : Option String) : Except Err (Option Int) :=
  if truthyStr start_date then
    match _parse_date_to_timestamp (start_date.getD "") with
    | .error e => .error e
    | .ok t => .ok (some t)
  else .ok none

/-- Lines 98-102: `end_timestamp` from `end_date`, else the current time. -/
def resolveEnd (end_date : Option String) (now : Int) : Except Err Int :=
  if truthyStr end_date then _parse_date_to_timestamp (end_date.getD "")
  else .ok now

/-- The `params` dict of one iteration (lines 112-125): `end` present iff
`current_end` is truthy, `start` present iff both `start_timestamp` and
`current_end` are truthy. -/
def mkParams (category symbol interval : String) (startTs : Option Int)
    (currentEnd : Int) : FetchParams :=
  { category := category, symbol := symbol, interval := interval,
    limit := MAX_LIMIT,
    start := if truthyOpt startTs && (currentEnd != 0) then startTs else none,
    end_ := if currentEnd != 0 then some currentEnd else none }

/-- The `while True` pagination loop (lines 110-159), fuelled.  `.ok none`
means the fuel ran out before the loop terminated. -/
def fetchLoop (provider : FetchParams → Except Err (List Row))
    (category symbol interval : String) (startTs : Option Int) :
    Nat → Int → List Row → List FetchParams → Except Err (Option LoopOut)
  | 0, _, _, _ => .ok none
  | fuel + 1, currentEnd, all_data, calls =>
    let p := mkParams category symbol interval startTs currentEnd
    match provider p with
    | .error e => .error e
    | .ok data =>
      if data.isEmpty then
        .ok (some ⟨all_data, calls ++ [p]⟩)
      else
        let oldest := (data.getLastD default).ts
        if truthyOpt startTs && decide (oldest ≤ startTs.getD 0) then
          .ok (some ⟨all_data ++ data, calls ++ [p]⟩)
        else if data.length < MAX_LIMIT then
          .ok (some ⟨all_data ++ data, calls ++ [p]⟩)
        else
          fetchLoop provider category symbol interval startTs fuel (oldest - 1)
            (all_data ++ data) (calls ++ [p])

/-- Comparison used by `df.sort_values('timestamp')`. -/
def rowLe (a b : Row) : Prop := a.ts ≤ b.ts

instance : DecidableRel rowLe := fun a b => inferInstanceAs (Decidable (a.ts ≤ b.ts))

instance : IsTotal Row rowLe := ⟨fun a b => Int.le_total a.ts b.ts⟩

instance : IsTrans Row rowLe := ⟨fun _ _ _ h1 h2 => le_trans h1 h2⟩

/-- Lines 161-173: empty accumulation returns an empty DataFrame; otherwise
filter `timestamp >= start_timestamp` when `start_timestamp` is truthy, then
sort ascending by timestamp. -/
def assemble (startTs : Option Int) (all_data : List Row) : List Row :=
  if all_data.isEmpty then []
  else
    List.insertionSort rowLe
      (if truthyOpt startTs then all_data.filter (fun r => startTs.getD 0 ≤ r.ts)
       else all_data)

/-- `get_ohlcv` (lines 26-176): validation, date resolution, pagination loop,
assembly. -/
def get_ohlcv (provider : FetchParams → Except Err (List Row)) (fuel : Nat)
    (symbol interval : String) (start_date end_date : Option String)
    (category : String) (now : Int) : Except Err (Option FetchResult) :=
  if symbol = "" then .error (.validationError "Symbol cannot be empty")
  else if interval = "" then .error (.validationError "Interval cannot be empty")
  else if ¬ category ∈ valid_categories then
    .error (.validationError "Category must be one of the valid categories")
  else
    match resolveStart start_date with
    | .error e => .error e
    | .ok startTs =>
      match resolveEnd end_date now with
      | .error e => .error e
      | .ok endTs =>
        match fetchLoop provider category symbol interval startTs fuel endTs [] [] with
        | .error e => .error e
        | .ok none => .ok none
        | .ok (some out) => .ok (some ⟨assemble startTs out.rows, out.calls⟩)

/-- `[instrument['symbol'] for instrument in instruments]`: `none` models a
missing `'symbol'` key, whose `KeyError` aborts the comprehension. -/
def allSome : List (Option String) → Option (List String)
  | [] => some []
  | none :: _ => none
  | some x :: xs => (allSome xs).map (fun l => x :: l)

/-- Decoded response of the instruments-info endpoint. -/
structure InstrumentsResp where
  retCode : Int
  retMsg : String
  instruments : List (Option String)
  deriving Repr, DecidableEq

/-- `get_available_symbols` (lines 277-306): the transport/decoding layer is a
parameter; any raised error — transport failure, non-zero `retCode` (raised at
line 297), missing `'symbol'` key — is caught by the generic handler at line
304 and turned into `[]`; on success the symbols are returned sorted. -/
def get_available_symbols (fetch : String → Except Err InstrumentsResp)
    (category : String) : List String :=
  match fetch category with
  | .error _ => []
  | .ok resp =>
    if resp.retCode != 0 then []
    else
      match allSome resp.instruments with
      | none => []
      | some symbols => List.insertionSort (fun a b : String => a ≤ b) symbols

/-- The provider contract of spec section 6, plus genuineness of the
timestamps: every successfully returned page is strictly descending in `ts`
(newest-first), all timestamps are genuine epoch-millisecond instants (at
least `2`; the real provider's are around `10^12`), and the `end` query
parameter is honored as an inclusive upper bound when present. -/
def HonestProvider (provider : FetchParams → Except Err (List Row)) : Prop :=
  ∀ p data, provider p = .ok data →
    List.Pairwise (fun a b : Row => b.ts < a.ts) data ∧
    (∀ r ∈ data, 2 ≤ r.ts) ∧
    (∀ e, p.end_ = some e → ∀ r ∈ data, r.ts ≤ e)

/-- The candle with index `i` of a uniform one-millisecond-spaced history
starting at instant `a`. -/
def cand (a : Int) (i : Nat) : Row := ⟨a + i, []⟩

/-- `descRows a lo n = [cand a (lo+n-1), ..., cand a lo]`: `n` uniform candles
from index `lo` upward, listed newest-first. -/
def descRows (a : Int) (lo : Nat) : Nat → List Row
  | 0 => []
  | n + 1 => cand a (lo + n) :: descRows a lo n

/-- How many candles of a uniform history of `M` candles at `a, ..., a+M-1`
lie at or before the optional bound `e` (all of them when `e` is absent). -/
def uniformCount (a : Int) (M : Nat) : Option Int → Nat
  | none => M
  | some e0 => min M (e0 - a + 1).toNat

/-- The page a uniform history serves: the newest at most `limit` candles not
after `e`, newest-first. -/
def uniformPage (a : Int) (M limit : Nat) (e : Option Int) : List Row :=
  descRows a (uniformCount a M e - min (uniformCount a M e) limit)
    (min (uniformCount a M e) limit)

/-- A faithful fake of the kline endpoint over a uniform history. -/
def uniformProvider (a : Int) (M : Nat) : FetchParams → Except Err (List Row) :=
  fun p => .ok (uniformPage a M p.limit p.end_)

/-- Strict backward movement between successive optional end cursors. -/
def optDec (x y : Option Int) : Prop := ∃ u v, x = some u ∧ y = some v ∧ v < u

instance : IsTrans (Option Int) optDec := by
  constructor
  rintro x y z ⟨u, v, rfl, rfl, huv⟩ ⟨v2, w, hv, rfl, hw⟩
  rcases hv with ⟨rfl⟩
  exact ⟨u, w, rfl, rfl, by omega⟩

theorem descRows_length (a : Int) (lo : Nat) : ∀ n, (descRows a lo n).length = n
  | 0 => rfl
  | n + 1 => by simp [descRows, descRows_length a lo n]

theorem mem_descRows {a : Int} {lo : Nat} {r : Row} :
    ∀ {n}, r ∈ descRows a lo n → ∃ i, lo ≤ i ∧ i < lo + n ∧ r = cand a i := by
  intro n
  induction n with
  | zero => intro h; simp [descRows] at h
  | succ n ih =>
    intro h
    rcases List.mem_cons.mp h with h | h
    · exact ⟨lo + n, by omega, by omega, h⟩
    · obtain ⟨i, h1, h2, h3⟩ := ih h
      exact ⟨i, h1, by omega, h3⟩

theorem descRows_pairwise (a : Int) (lo : Nat) :
    ∀ n, List.Pairwise (fun x y : Row => y.ts < x.ts) (descRows a lo n) := by
  intro n
  induction n with
  | zero => exact List.Pairwise.nil
  | succ n ih =>
    refine List.pairwise_cons.mpr ⟨?_, ih⟩
    intro r hr
    obtain ⟨i, h1, h2, h3⟩ := mem_descRows hr
    subst h3
    simp only [cand]
    omega

theorem descRows_getLastD (a : Int) (lo : Nat) (d : Row) :
    ∀ n, n ≠ 0 → (descRows a lo n).getLastD d = cand a lo := by
  intro n
  induction n with
  | zero => intro h; exact absurd rfl h
  | succ n ih =>
    intro _
    match hn : n with
    | 0 => rfl
    | m + 1 =>
      show (descRows a lo (m + 1 + 1)).getLastD d = cand a lo
      rw [descRows, descRows]
      rw [descRows] at ih
      simpa [List.getLastD] using ih (by omega)

theorem mem_uniformPage {a : Int} {M limit : Nat} {e : Option Int} {r : Row}
    (hr : r ∈ uniformPage a M limit e) :
    ∃ i, i < M ∧ r = cand a i ∧ ∀ e0, e = some e0 → a + i ≤ e0 := by
  unfold uniformPage at hr
  obtain ⟨i, h1, h2, h3⟩ := mem_descRows hr
  cases e with
  | none =>
    simp only [uniformCount] at h2
    exact ⟨i, by omega, h3, fun e0 he0 => by cases he0⟩
  | some e0 =>
    simp only [uniformCount] at h2
    refine ⟨i, by omega, h3, ?_⟩
    intro e1 he1
    rcases he1 with ⟨rfl⟩
    omega

theorem uniformProvider_honest (a : Int) (M : Nat) (ha : 2 ≤ a) :
    HonestProvider (uniformProvider a M) := by
  intro p data hdata
  simp only [uniformProvider, Except.ok.injEq] at hdata
  subst hdata
  refine ⟨descRows_pairwise a _ _, ?_, ?_⟩
  · intro r hr
    obtain ⟨i, _, h3, _⟩ := mem_uniformPage hr
    subst h3
    simp only [cand]
    omega
  · intro e he r hr
    obtain ⟨i, _, h3, h4⟩ := mem_uniformPage hr
    subst h3
    simp only [cand]
    exact h4 e he

theorem getLastD_mem {α : Type} : ∀ (l : List α) (d : α), l ≠ [] → l.getLastD d ∈ l
  | [], _, h => absurd rfl h
  | [a], _, _ => by simp
  | a :: b :: t, d, _ => by
    rw [List.getLastD_cons]
    exact List.mem_cons_of_mem a (getLastD_mem (b :: t) a (by simp))

theorem desc_getLastD_le :
    ∀ (l : List Row) (d : Row), List.Pairwise (fun x y : Row => y.ts < x.ts) l →
      ∀ r ∈ l, (l.getLastD d).ts ≤ r.ts
  | [], _, _, r, hr => absurd hr (List.not_mem_nil r)
  | [a], _, _, r, hr => by
    rcases List.mem_singleton.mp hr with rfl
    simp
  | a :: b :: t, d, hp, r, hr => by
    rw [List.getLastD_cons]
    rcases List.mem_cons.mp hr with hra | hr'
    · rw [hra]
      have hmem := getLastD_mem (b :: t) a (by simp)
      have := (List.pairwise_cons.mp hp).1 _ hmem
      omega
    · exact desc_getLastD_le (b :: t) a (List.pairwise_cons.mp hp).2 r hr'

theorem mkParams_end_of_ne (category symbol interval : String) (startTs : Option Int)
    {ce : Int} (hce : ce ≠ 0) :
    (mkParams category symbol interval startTs ce).end_ = some ce := by
  simp [mkParams, hce]

/-- Loop invariant: starting from a strictly descending accumulator whose
timestamps all lie strictly above the cursor, an honest provider keeps the
accumulator strictly descending (newest first); moreover every accumulated row
either was already present or is a genuine provider row (`ts ≥ 2`). -/
theorem fetchLoop_desc (provider : FetchParams → Except Err (List Row))
    (category symbol interval : String) (startTs : Option Int)
    (hp : HonestProvider provider) :
    ∀ fuel ce all_data calls out,
      List.Pairwise (fun x y : Row => y.ts < x.ts) all_data →
      (∀ r ∈ all_data, ce < r.ts) →
      (all_data = [] ∨ ce ≠ 0) →
      fetchLoop provider category symbol interval startTs fuel ce all_data calls =
        .ok (some out) →
      List.Pairwise (fun x y : Row => y.ts < x.ts) out.rows ∧
        ∀ r ∈ out.rows, r ∈ all_data ∨ 2 ≤ r.ts := by
  intro fuel
  induction fuel with
  | zero =>
    intro ce all_data calls out _ _ _ hrun
    simp [fetchLoop] at hrun
  | succ fuel ih =>
    intro ce all_data calls out hdesc hbound hce hrun
    simp only [fetchLoop] at hrun
    cases hprov : provider (mkParams category symbol interval startTs ce) with
    | error e => rw [hprov] at hrun; exact absurd hrun (by simp)
    | ok data =>
      rw [hprov] at hrun
      simp only at hrun
      obtain ⟨hdescp, hpos, hend⟩ := hp _ data hprov
      have hcross : ∀ x ∈ all_data, ∀ y ∈ data, y.ts < x.ts := by
        intro x hx y hy
        rcases hce with rfl | hce0
        · exact absurd hx (List.not_mem_nil x)
        · have h1 := hend ce (mkParams_end_of_ne category symbol interval startTs hce0) y hy
          have h2 := hbound x hx
          omega
      have happ : List.Pairwise (fun x y : Row => y.ts < x.ts) (all_data ++ data) :=
        List.pairwise_append.mpr ⟨hdesc, hdescp, hcross⟩
      have hmemapp : ∀ r ∈ all_data ++ data, r ∈ all_data ∨ 2 ≤ r.ts := by
        intro r hr
        rcases List.mem_append.mp hr with h | h
        · exact Or.inl h
        · exact Or.inr (hpos r h)
      split at hrun
      · next hempty =>
        rcases hrun with ⟨rfl⟩
        exact ⟨hdesc, fun r hr => Or.inl hr⟩
      · next hempty =>
        have hne : data ≠ [] := by
          intro h; subst h; simp at hempty
        split at hrun
        · next hbreak1 =>
          rcases hrun with ⟨rfl⟩
          exact ⟨happ, hmemapp⟩
        · next hbreak1 =>
          split at hrun
          · next hbreak2 =>
            rcases hrun with ⟨rfl⟩
            exact ⟨happ, hmemapp⟩
          · next hbreak2 =>
            have hlast_mem := getLastD_mem data default hne
            have hlast_pos : 2 ≤ (data.getLastD default).ts := hpos _ hlast_mem
            have hbound' : ∀ r ∈ all_data ++ data,
                (data.getLastD default).ts - 1 < r.ts := by
              intro r hr
              rcases List.mem_append.mp hr with h | h
              · rcases hce with rfl | hce0
                · exact absurd h (List.not_mem_nil r)
                · have h1 := hend ce (mkParams_end_of_ne category symbol interval startTs hce0)
                      _ hlast_mem
                  have h2 := hbound r h
                  omega
              · have := desc_getLastD_le data default hdescp r h
                omega
            have := ih ((data.getLastD default).ts - 1) (all_data ++ data)
              (calls ++ [mkParams category symbol interval startTs ce]) out happ hbound'
              (Or.inr (by omega)) hrun
            refine ⟨this.1, ?_⟩
            intro r hr
            rcases this.2 r hr with h | h
            · exact hmemapp r h
            · exact Or.inr h

/-- Loop invariant for the inclusive upper bound: with a truthy cursor at most
`B` and an accumulator below `B`, every row an honest provider run accumulates
stays at most `B`. -/
theorem fetchLoop_ub (provider : FetchParams → Except Err (List Row))
    (category symbol interval : String) (startTs : Option Int)
    (hp : HonestProvider provider) :
    ∀ fuel ce all_data calls out (B : Int),
      (∀ r ∈ all_data, r.ts ≤ B) → ce ≤ B → ce ≠ 0 →
      fetchLoop provider category symbol interval startTs fuel ce all_data calls =
        .ok (some out) →
      ∀ r ∈ out.rows, r.ts ≤ B := by
  intro fuel
  induction fuel with
  | zero =>
    intro ce all_data calls out B _ _ _ hrun
    simp [fetchLoop] at hrun
  | succ fuel ih =>
    intro ce all_data calls out B hacc hceB hce0 hrun
    simp only [fetchLoop] at hrun
    cases hprov : provider (mkParams category symbol interval startTs ce) with
    | error e => rw [hprov] at hrun; exact absurd hrun (by simp)
    | ok data =>
      rw [hprov] at hrun
      simp only at hrun
      obtain ⟨hdescp, hpos, hend⟩ := hp _ data hprov
      have hdataB : ∀ r ∈ data, r.ts ≤ B := by
        intro r hr
        have := hend ce (mkParams_end_of_ne category symbol interval startTs hce0) r hr
        omega
      have happB : ∀ r ∈ all_data ++ data, r.ts ≤ B := by
        intro r hr
        rcases List.mem_append.mp hr with h | h
        · exact hacc r h
        · exact hdataB r h
      split at hrun
      · next hempty =>
        rcases hrun with ⟨rfl⟩
        exact hacc
      · next hempty =>
        have hne : data ≠ [] := by
          intro h; subst h; simp at hempty
        split at hrun
        · next hbreak1 =>
          rcases hrun with ⟨rfl⟩
          exact happB
        · next hbreak1 =>
          split at hrun
          · next hbreak2 =>
            rcases hrun with ⟨rfl⟩
            exact happB
          · next hbreak2 =>
            have hlast_mem := getLastD_mem data default hne
            have hlast_pos : 2 ≤ (data.getLastD default).ts := hpos _ hlast_mem
            have hlastB : (data.getLastD default).ts ≤ B := hdataB _ hlast_mem
            exact ih ((data.getLastD default).ts - 1) (all_data ++ data)
              (calls ++ [mkParams category symbol interval startTs ce]) out B happB
              (by omega) (by omega) hrun

/-- Inversion of a completed successful run of `get_ohlcv`: validation passed,
both dates resolved, the loop terminated within fuel, and the result is the
assembled accumulation. -/
theorem get_ohlcv_ok_inv {provider : FetchParams → Except Err (List Row)} {fuel : Nat}
    {symbol interval : String} {start_date end_date : Option String} {category : String}
    {now : Int} {res : FetchResult}
    (hrun : get_ohlcv provider fuel symbol interval start_date end_date category now =
      .ok (some res)) :
    ∃ startTs endTs out,
      resolveStart start_date = .ok startTs ∧
      resolveEnd end_date now = .ok endTs ∧
      fetchLoop provider category symbol interval startTs fuel endTs [] [] = .ok (some out) ∧
      res = ⟨assemble startTs out.rows, out.calls⟩ := by
  unfold get_ohlcv at hrun
  split at hrun
  · exact absurd hrun (by simp)
  · split at hrun
    · exact absurd hrun (by simp)
    · split at hrun
      · exact absurd hrun (by simp)
      · split at hrun
        · exact absurd hrun (by simp)
        · next startTs hst =>
          split at hrun
          · exact absurd hrun (by simp)
          · next endTs hendeq =>
            split at hrun
            · exact absurd hrun (by simp)
            · exact absurd hrun (by simp)
            · next out hloop =>
              rcases hrun with ⟨rfl⟩
              exact ⟨startTs, endTs, out, hst, hendeq, hloop, rfl⟩

/-- Sorting a list whose timestamps are strictly descending produces a list
with strictly increasing timestamps. -/
theorem sort_pairwise_lt {l : List Row}
    (h : List.Pairwise (fun x y : Row => y.ts < x.ts) l) :
    List.Pairwise (fun x y : Row => x.ts < y.ts) (List.insertionSort rowLe l) := by
  have hne : List.Pairwise (fun x y : Row => x.ts ≠ y.ts) l :=
    h.imp (fun hlt => by omega)
  have hperm : List.Perm (List.insertionSort rowLe l) l := List.perm_insertionSort rowLe l
  have hsorted : List.Pairwise rowLe (List.insertionSort rowLe l) :=
    List.sorted_insertionSort rowLe l
  have hne' : List.Pairwise (fun x y : Row => x.ts ≠ y.ts) (List.insertionSort rowLe l) :=
    (List.Perm.pairwise_iff (by intro x y hab; exact hab.symm) hperm).mpr hne
  exact (hsorted.and hne').imp (fun hab => lt_of_le_of_ne hab.1 hab.2)

/-- The assembled series of a strictly descending accumulation has strictly
increasing timestamps. -/
theorem assemble_pairwise_lt (startTs : Option Int) {rows : List Row}
    (h : List.Pairwise (fun x y : Row => y.ts < x.ts) rows) :
    List.Pairwise (fun x y : Row => x.ts < y.ts) (assemble startTs rows) := by
  unfold assemble
  split
  · exact List.Pairwise.nil
  · split
    · exact sort_pairwise_lt (List.Pairwise.sublist (List.filter_sublist rows) h)
    · exact sort_pairwise_lt h

/-- C1: for every successful fetch from an honest provider, the series
returned by `get_ohlcv` is sorted ascending by timestamp with strictly
increasing `ts` values and no duplicate timestamps. -/
theorem C1_series_strictly_increasing
    {provider : FetchParams → Except Err (List Row)} {fuel : Nat}
    {symbol interval : String} {start_date end_date : Option String} {category : String}
    {now : Int} {res : FetchResult}
    (hp : HonestProvider provider)
    (hrun : get_ohlcv provider fuel symbol interval start_date end_date category now =
      .ok (some res)) :
    List.Pairwise (fun x y : Row => x.ts < y.ts) res.series := by
  obtain ⟨startTs, endTs, out, _, _, hloop, hres⟩ := get_ohlcv_ok_inv hrun
  have hdesc := fetchLoop_desc provider category symbol interval startTs hp fuel endTs [] []
    out List.Pairwise.nil (by simp) (Or.inl rfl) hloop
  rw [hres]
  exact assemble_pairwise_lt startTs hdesc.1

/-- Witness for C1: a concrete five-candle run over an honest uniform
provider produces a strictly increasing series. -/
theorem C1_series_strictly_increasing_witness :
    List.Pairwise (fun x y : Row => x.ts < y.ts)
      (FetchResult.mk [Row.mk 2 [], Row.mk 3 [], Row.mk 4 [], Row.mk 5 [], Row.mk 6 []]
        [FetchParams.mk "spot" "BTCUSDT" "1" 1000 none (some 6)]).series := by
  have hrun : get_ohlcv (uniformProvider 2 5) 3 "BTCUSDT" "1" none none "spot" 6 =
      .ok (some (FetchResult.mk
        [Row.mk 2 [], Row.mk 3 [], Row.mk 4 [], Row.mk 5 [], Row.mk 6 []]
        [FetchParams.mk "spot" "BTCUSDT" "1" 1000 none (some 6)])) := by decide
  exact C1_series_strictly_increasing (uniformProvider_honest 2 5 (by decide)) hrun

theorem isEmpty_false_of_ne {l : List Row} (h : l ≠ []) : l.isEmpty = false := by
  cases l with
  | nil => exact absurd rfl h
  | cons a t => rfl

/-- Membership in the assembled series comes from the accumulation and, when
the start bound is truthy, respects the filter. -/
theorem mem_assemble {startTs : Option Int} {rows : List Row} {r : Row}
    (hr : r ∈ assemble startTs rows) :
    r ∈ rows ∧ (truthyOpt startTs = true → startTs.getD 0 ≤ r.ts) := by
  unfold assemble at hr
  split at hr
  · exact absurd hr (List.not_mem_nil r)
  · rw [List.mem_insertionSort] at hr
    split at hr
    · next htr =>
      rw [List.mem_filter] at hr
      exact ⟨hr.1, fun _ => by simpa using hr.2⟩
    · next htr =>
      exact ⟨hr, fun h => absurd h htr⟩

/-- A row of the accumulation that passes the filter appears in the assembled
series. -/
theorem mem_assemble_of {startTs : Option Int} {rows : List Row} {r : Row}
    (hr : r ∈ rows) (hge : startTs.getD 0 ≤ r.ts) :
    r ∈ assemble startTs rows := by
  have hne : rows ≠ [] := fun h => by subst h; exact absurd hr (List.not_mem_nil r)
  unfold assemble
  rw [if_neg (by simp [isEmpty_false_of_ne hne])]
  rw [List.mem_insertionSort]
  split
  · exact List.mem_filter.mpr ⟨hr, by simpa using hge⟩
  · exact hr

/-- C2 (amended): for every successful fetch from an honest provider, if a
start was supplied then every returned candle has `ts` at least the resolved
start; if an end was supplied and it resolved to a nonzero timestamp, every
returned candle has `ts` at most the resolved end. -/
theorem C2_range_bounds
    {provider : FetchParams → Except Err (List Row)} {fuel : Nat}
    {symbol interval : String} {start_date end_date : Option String} {category : String}
    {now : Int} {res : FetchResult}
    (hp : HonestProvider provider)
    (hrun : get_ohlcv provider fuel symbol interval start_date end_date category now =
      .ok (some res)) :
    (∀ s, resolveStart start_date = .ok (some s) → ∀ r ∈ res.series, s ≤ r.ts) ∧
    (∀ e, resolveEnd end_date now = .ok e → e ≠ 0 → ∀ r ∈ res.series, r.ts ≤ e) := by
  obtain ⟨startTs, endTs, out, hst, hend, hloop, hres⟩ := get_ohlcv_ok_inv hrun
  have hdesc := fetchLoop_desc provider category symbol interval startTs hp fuel endTs [] []
    out List.Pairwise.nil (by simp) (Or.inl rfl) hloop
  constructor
  · intro s hs r hr
    rw [hst] at hs
    rcases hs with ⟨rfl⟩
    rw [hres] at hr
    obtain ⟨hmem, hfil⟩ := mem_assemble hr
    by_cases hs0 : s = 0
    · subst hs0
      have := hdesc.2 r hmem
      rcases this with h | h
      · exact absurd h (List.not_mem_nil r)
      · omega
    · have := hfil (by simp [truthyOpt, hs0])
      simpa using this
  · intro e he hene r hr
    rw [hend] at he
    rcases he with ⟨rfl⟩
    rw [hres] at hr
    obtain ⟨hmem, _⟩ := mem_assemble hr
    exact fetchLoop_ub provider category symbol interval startTs hp fuel endTs [] [] out endTs
      (by simp) le_rfl hene hloop r hmem

/-- C2 as literally stated fails on the code: with `end_date = "1970-01-01"`
the resolved end is epoch-millisecond `0`, which is falsy, so the `end`
parameter is never sent and the honest provider returns recent candles whose
timestamps exceed the resolved end. -/
theorem C2_range_bounds_counterexample :
    HonestProvider (uniformProvider 100 1) ∧
    get_ohlcv (uniformProvider 100 1) 3 "BTCUSDT" "1" none (some "1970-01-01") "spot" 0 =
      .ok (some (FetchResult.mk [Row.mk 100 []]
        [FetchParams.mk "spot" "BTCUSDT" "1" 1000 none none])) ∧
    resolveEnd (some "1970-01-01") 0 = .ok 0 ∧
    ¬ (Row.mk 100 []).ts ≤ 0 :=
  ⟨uniformProvider_honest 100 1 (by decide), by decide, by decide, by decide⟩

/-- Witness for C2 (amended): in a concrete bounded run the first and last
candles of the returned series respect both resolved bounds. -/
theorem C2_range_bounds_witness :
    (86400000 : Int) ≤ (Row.mk 86400000 []).ts ∧ (Row.mk 86400002 []).ts ≤ 172800000 := by
  have hrun : get_ohlcv (uniformProvider 86400000 3) 3 "BTCUSDT" "1"
      (some "1970-01-02") (some "1970-01-03") "spot" 0 =
      .ok (some (FetchResult.mk
        [Row.mk 86400000 [], Row.mk 86400001 [], Row.mk 86400002 []]
        [FetchParams.mk "spot" "BTCUSDT" "1" 1000 (some 86400000) (some 172800000)])) := by
    decide
  have h := C2_range_bounds (uniformProvider_honest 86400000 3 (by decide)) hrun
  exact ⟨h.1 86400000 (by decide) (Row.mk 86400000 []) (by decide),
    h.2 172800000 (by decide) (by decide) (Row.mk 86400002 []) (by decide)⟩

/-- C3: after a non-empty page from an honest provider the loop applies its
rules in order — terminate when a resolved start exists and the page's oldest
timestamp is at most it; otherwise terminate when the page held fewer rows
than the page-size limit; otherwise continue with the cursor set to the
oldest timestamp minus one millisecond. -/
theorem C3_termination_priority
    {provider : FetchParams → Except Err (List Row)}
    {category symbol interval : String} {startTs : Option Int} {ce : Int}
    {data : List Row} (hp : HonestProvider provider)
    (hdata : provider (mkParams category symbol interval startTs ce) = .ok data)
    (hne : data ≠ []) (fuel : Nat) (all_data : List Row) (calls : List FetchParams) :
    ((∃ s, startTs = some s ∧ (data.getLastD default).ts ≤ s) →
      fetchLoop provider category symbol interval startTs (fuel + 1) ce all_data calls =
        .ok (some ⟨all_data ++ data,
          calls ++ [mkParams category symbol interval startTs ce]⟩)) ∧
    ((¬ ∃ s, startTs = some s ∧ (data.getLastD default).ts ≤ s) →
      data.length < MAX_LIMIT →
      fetchLoop provider category symbol interval startTs (fuel + 1) ce all_data calls =
        .ok (some ⟨all_data ++ data,
          calls ++ [mkParams category symbol interval startTs ce]⟩)) ∧
    ((¬ ∃ s, startTs = some s ∧ (data.getLastD default).ts ≤ s) →
      ¬ data.length < MAX_LIMIT →
      fetchLoop provider category symbol interval startTs (fuel + 1) ce all_data calls =
        fetchLoop provider category symbol interval startTs fuel
          ((data.getLastD default).ts - 1) (all_data ++ data)
          (calls ++ [mkParams category symbol interval startTs ce])) := by
  obtain ⟨hdescp, hpos, _⟩ := hp _ data hdata
  have holdest : 2 ≤ (data.getLastD default).ts := hpos _ (getLastD_mem data default hne)
  have hemp : data.isEmpty = false := isEmpty_false_of_ne hne
  refine ⟨?_, ?_, ?_⟩
  · rintro ⟨s, rfl, hle⟩
    have hs0 : s ≠ 0 := by omega
    simp only [fetchLoop, hdata]
    simp only [hemp, Bool.false_eq_true, if_false]
    have h1 : truthyOpt (some s) = true := by simp [truthyOpt, hs0]
    have h2 : decide ((data.getLastD default).ts ≤ (Option.some s).getD 0) = true := by
      simpa using hle
    rw [h1, h2]
    simp
  · intro hnex hlen
    have hcond : (truthyOpt startTs &&
        decide ((data.getLastD default).ts ≤ startTs.getD 0)) = false := by
      cases startTs with
      | none => rfl
      | some s =>
        have h1 : ¬ (data.getLastD default).ts ≤ s := fun hle => hnex ⟨s, rfl, hle⟩
        have h2 : decide ((data.getLastD default).ts ≤ (Option.some s).getD 0) = false := by
          simpa using h1
        rw [h2, Bool.and_false]
    simp only [fetchLoop, hdata]
    simp only [hemp, Bool.false_eq_true, if_false, hcond, if_pos hlen]
  · intro hnex hlen
    have hcond : (truthyOpt startTs &&
        decide ((data.getLastD default).ts ≤ startTs.getD 0)) = false := by
      cases startTs with
      | none => rfl
      | some s =>
        have h1 : ¬ (data.getLastD default).ts ≤ s := fun hle => hnex ⟨s, rfl, hle⟩
        have h2 : decide ((data.getLastD default).ts ≤ (Option.some s).getD 0) = false := by
          simpa using h1
        rw [h2, Bool.and_false]
    simp only [fetchLoop, hdata]
    simp only [hemp, Bool.false_eq_true, if_false, hcond, if_neg hlen]

/-- Witness for C3: the short-page rule fires on a five-row page from an
honest provider and terminates the loop with the page appended. -/
theorem C3_termination_priority_witness :
    fetchLoop (uniformProvider 2 5) "spot" "BTCUSDT" "1" none 1 10 [] [] =
      .ok (some (LoopOut.mk
        [Row.mk 6 [], Row.mk 5 [], Row.mk 4 [], Row.mk 3 [], Row.mk 2 []]
        [FetchParams.mk "spot" "BTCUSDT" "1" 1000 none (some 10)])) := by
  have hdata : uniformProvider 2 5 (mkParams "spot" "BTCUSDT" "1" none 10) =
      .ok [Row.mk 6 [], Row.mk 5 [], Row.mk 4 [], Row.mk 3 [], Row.mk 2 []] := by decide
  have h := (C3_termination_priority (uniformProvider_honest 2 5 (by decide)) hdata
      (by decide) 0 [] []).2.1 (by simp) (by decide)
  exact h

/-- C4: an error raised by any page call aborts the loop immediately with
that same error, and a loop aborted by an error makes `get_ohlcv` return it
to the caller unchanged — no partial series, no internal retry. -/
theorem C4_error_propagation
    {provider : FetchParams → Except Err (List Row)}
    {symbol interval category : String} {startTs : Option Int}
    {start_date end_date : Option String} {now endTs : Int} {e : Err} {fuel : Nat}
    (hsym : symbol ≠ "") (hint : interval ≠ "") (hcat : category ∈ valid_categories)
    (hst : resolveStart start_date = .ok startTs)
    (hend : resolveEnd end_date now = .ok endTs) :
    (∀ fuel2 ce all_data calls,
      provider (mkParams category symbol interval startTs ce) = .error e →
      fetchLoop provider category symbol interval startTs (fuel2 + 1) ce all_data calls =
        .error e) ∧
    (fetchLoop provider category symbol interval startTs fuel endTs [] [] = .error e →
      get_ohlcv provider fuel symbol interval start_date end_date category now = .error e) := by
  constructor
  · intro fuel2 ce all_data calls herr
    simp only [fetchLoop, herr]
  · intro hloop
    unfold get_ohlcv
    rw [if_neg hsym, if_neg hint, if_neg (not_not_intro hcat), hst]
    simp only
    rw [hend]
    simp only
    rw [hloop]

/-- Witness for C4: a provider that always fails makes the whole fetch fail
with exactly that error. -/
theorem C4_error_propagation_witness :
    get_ohlcv (fun _ => .error (.requestError "boom")) 1 "BTCUSDT" "1" none none "spot" 5 =
      .error (.requestError "boom") := by
  have h := @C4_error_propagation (fun _ => .error (.requestError "boom"))
    "BTCUSDT" "1" "spot" none none none 5 5 (.requestError "boom") 1
    (by decide) (by decide) (by decide) rfl rfl
  exact h.2 (h.1 0 5 [] [] rfl)

/-- Driving the loop over a uniform history with `q*limit + k` candles at or
before the cursor (`1 ≤ k < limit`) issues exactly `q+1` further calls, all
with strictly decreasing truthy `end` cursors, and accumulates exactly those
candles. -/
theorem uniform_loop_run (a : Int) (M : Nat) (ha : 2 ≤ a)
    (category symbol interval : String) :
    ∀ q k fuel ce all_data calls, 1 ≤ k → k < MAX_LIMIT → q + 1 ≤ fuel → ce ≠ 0 →
      min M (ce - a + 1).toNat = q * MAX_LIMIT + k →
      ∃ (newRows : List Row) (newCalls : List FetchParams),
        fetchLoop (uniformProvider a M) category symbol interval none fuel ce all_data calls =
          .ok (some ⟨all_data ++ newRows, calls ++ newCalls⟩) ∧
        newRows.length = q * MAX_LIMIT + k ∧
        newCalls.length = q + 1 ∧
        (∀ p ∈ newCalls, ∃ u, p.end_ = some u ∧ u ≤ ce) ∧
        List.Chain' optDec (newCalls.map (fun p => p.end_)) := by
  intro q
  induction q with
  | zero =>
    intro k fuel ce all_data calls hk1 hk2 hfuel hce hcount
    obtain ⟨fuel2, rfl⟩ : ∃ f, fuel = f + 1 := ⟨fuel - 1, by omega⟩
    have hpage : uniformProvider a M (mkParams category symbol interval none ce) =
        .ok (descRows a 0 k) := by
      unfold uniformProvider uniformPage
      rw [show (mkParams category symbol interval none ce).end_ = some ce from
        mkParams_end_of_ne category symbol interval none hce]
      rw [show (mkParams category symbol interval none ce).limit = MAX_LIMIT from rfl]
      rw [show uniformCount a M (some ce) = k from by simpa [uniformCount] using hcount]
      rw [Nat.min_eq_left (le_of_lt hk2), Nat.sub_self]
    have hne : descRows a 0 k ≠ [] := by
      intro h
      have hl := descRows_length a 0 k
      rw [h] at hl
      simp at hl
      omega
    have hemp : (descRows a 0 k).isEmpty = false := isEmpty_false_of_ne hne
    have hlen : (descRows a 0 k).length < MAX_LIMIT := by
      rw [descRows_length]; exact hk2
    refine ⟨descRows a 0 k, [mkParams category symbol interval none ce], ?_, ?_, ?_, ?_, ?_⟩
    · simp only [fetchLoop, hpage]
      simp only [hemp, Bool.false_eq_true, if_false]
      rw [show (truthyOpt none && decide (((descRows a 0 k).getLastD default).ts ≤
          (Option.none : Option Int).getD 0)) = false from rfl]
      simp only [Bool.false_eq_true, if_false, if_pos hlen]
    · rw [descRows_length]
      simp only [MAX_LIMIT]
      omega
    · rfl
    · intro p hp
      rcases List.mem_singleton.mp hp with rfl
      exact ⟨ce, mkParams_end_of_ne category symbol interval none hce, le_rfl⟩
    · simp
  | succ q ih =>
    intro k fuel ce all_data calls hk1 hk2 hfuel hce hcount
    obtain ⟨fuel2, rfl⟩ : ∃ f, fuel = f + 1 := ⟨fuel - 1, by omega⟩
    have hcM : (q + 1) * MAX_LIMIT + k ≤ M := by
      have h := Nat.min_le_left M (ce - a + 1).toNat
      rw [hcount] at h
      exact h
    have hcT : (q + 1) * MAX_LIMIT + k ≤ (ce - a + 1).toNat := by
      have h := Nat.min_le_right M (ce - a + 1).toNat
      rw [hcount] at h
      exact h
    have hceZ : a + ((q + 1) * MAX_LIMIT + k : Nat) - 1 ≤ ce := by
      have h1 : (1 : Nat) ≤ (q + 1) * MAX_LIMIT + k := by
        simp only [MAX_LIMIT]; omega
      omega
    have hpage : uniformProvider a M (mkParams category symbol interval none ce) =
        .ok (descRows a (q * MAX_LIMIT + k) MAX_LIMIT) := by
      unfold uniformProvider uniformPage
      rw [show (mkParams category symbol interval none ce).end_ = some ce from
        mkParams_end_of_ne category symbol interval none hce]
      rw [show (mkParams category symbol interval none ce).limit = MAX_LIMIT from rfl]
      rw [show uniformCount a M (some ce) = (q + 1) * MAX_LIMIT + k from by
        simpa [uniformCount] using hcount]
      rw [Nat.min_eq_right (by simp only [MAX_LIMIT]; omega :
        MAX_LIMIT ≤ (q + 1) * MAX_LIMIT + k)]
      rw [show (q + 1) * MAX_LIMIT + k - MAX_LIMIT = q * MAX_LIMIT + k from by
        simp only [MAX_LIMIT]; omega]
    have hne : descRows a (q * MAX_LIMIT + k) MAX_LIMIT ≠ [] := by
      intro h
      have hl := descRows_length a (q * MAX_LIMIT + k) MAX_LIMIT
      rw [h] at hl
      simp only [List.length_nil, MAX_LIMIT] at hl
      omega
    have hemp : (descRows a (q * MAX_LIMIT + k) MAX_LIMIT).isEmpty = false :=
      isEmpty_false_of_ne hne
    have hlen : ¬ (descRows a (q * MAX_LIMIT + k) MAX_LIMIT).length < MAX_LIMIT := by
      rw [descRows_length]
      omega
    have hstep : fetchLoop (uniformProvider a M) category symbol interval none (fuel2 + 1)
        ce all_data calls =
        fetchLoop (uniformProvider a M) category symbol interval none fuel2
          (a + (q * MAX_LIMIT + k : Nat) - 1)
          (all_data ++ descRows a (q * MAX_LIMIT + k) MAX_LIMIT)
          (calls ++ [mkParams category symbol interval none ce]) := by
      simp only [fetchLoop, hpage]
      simp only [hemp, Bool.false_eq_true, if_false]
      rw [show (truthyOpt none &&
          decide (((descRows a (q * MAX_LIMIT + k) MAX_LIMIT).getLastD default).ts ≤
            (Option.none : Option Int).getD 0)) = false from rfl]
      simp only [Bool.false_eq_true, if_false, if_neg hlen]
      rw [descRows_getLastD a (q * MAX_LIMIT + k) default MAX_LIMIT
        (by simp only [MAX_LIMIT]; omega)]
      rfl
    have hcur : a + ((q + 1) * MAX_LIMIT + k : Nat) - 1 - MAX_LIMIT =
        a + (q * MAX_LIMIT + k : Nat) - 1 := by
      simp only [MAX_LIMIT]
      push_cast
      ring
    have hnz : a + ((q * MAX_LIMIT + k : Nat) : Int) - 1 ≠ 0 := by
      have : (0 : Int) ≤ ((q * MAX_LIMIT + k : Nat) : Int) := Int.natCast_nonneg _
      omega
    have hcnt2 : min M (a + ((q * MAX_LIMIT + k : Nat) : Int) - 1 - a + 1).toNat =
        q * MAX_LIMIT + k := by
      have h1 : (a + ((q * MAX_LIMIT + k : Nat) : Int) - 1 - a + 1).toNat =
          q * MAX_LIMIT + k := by omega
      rw [h1]
      refine Nat.min_eq_right ?_
      have : q * MAX_LIMIT + k ≤ (q + 1) * MAX_LIMIT + k := by
        simp only [MAX_LIMIT]; omega
      omega
    obtain ⟨nr, nc, hrun2, hlenr, hlenc, hbound2, hchain2⟩ :=
      ih k fuel2 (a + (q * MAX_LIMIT + k : Nat) - 1)
        (all_data ++ descRows a (q * MAX_LIMIT + k) MAX_LIMIT)
        (calls ++ [mkParams category symbol interval none ce])
        hk1 hk2 (by omega) hnz hcnt2
    have hlt : a + ((q * MAX_LIMIT + k : Nat) : Int) - 1 < ce := by
      have h1 : ((q + 1) * MAX_LIMIT + k : Nat) = (q * MAX_LIMIT + k) + MAX_LIMIT := by
        simp only [MAX_LIMIT]; omega
      rw [h1] at hceZ
      have h2 : (1 : Nat) ≤ MAX_LIMIT := by simp only [MAX_LIMIT]; omega
      push_cast at hceZ ⊢
      omega
    refine ⟨descRows a (q * MAX_LIMIT + k) MAX_LIMIT ++ nr,
      mkParams category symbol interval none ce :: nc, ?_, ?_, ?_, ?_, ?_⟩
    · rw [hstep, hrun2]
      rw [List.append_assoc, List.append_assoc]
      rfl
    · rw [List.length_append, descRows_length, hlenr]
      simp only [MAX_LIMIT]
      omega
    · simp [hlenc]
    · intro p hp
      rcases List.mem_cons.mp hp with rfl | hp2
      · exact ⟨ce, mkParams_end_of_ne category symbol interval none hce, le_rfl⟩
      · obtain ⟨u, hu, hule⟩ := hbound2 p hp2
        exact ⟨u, hu, by omega⟩
    · rw [List.map_cons]
      rw [List.chain'_cons']
      refine ⟨?_, hchain2⟩
      intro b hb
      cases hnc : nc with
      | nil => rw [hnc] at hb; simp at hb
      | cons p0 nc2 =>
        rw [hnc] at hb
        simp only [List.map_cons, List.head?_cons] at hb
        rcases hb with ⟨rfl⟩
        obtain ⟨u, hu, hule⟩ := hbound2 p0 (by rw [hnc]; exact List.mem_cons_self p0 nc2)
        rw [mkParams_end_of_ne category symbol interval none hce, hu]
        exact ⟨ce, u, rfl, rfl, by omega⟩

/-- C5: over a history of exactly N full pages followed by one short page of
k < limit rows and with no start bound, the driver issues exactly N+1 calls,
stops after the short page, never repeats a previously used cursor value, and
accumulates exactly N*limit + k rows. -/
theorem C5_pagination_page_count
    (a : Int) (M N k fuel : Nat) (symbol interval category : String)
    (ha : 2 ≤ a) (hM : M = N * MAX_LIMIT + k) (hk1 : 1 ≤ k) (hk2 : k < MAX_LIMIT)
    (hfuel : N + 1 ≤ fuel)
    (hsym : symbol ≠ "") (hint : interval ≠ "") (hcat : category ∈ valid_categories) :
    ∃ res, get_ohlcv (uniformProvider a M) fuel symbol interval none none category
        (a + (M : Int) - 1) = .ok (some res) ∧
      res.calls.length = N + 1 ∧
      res.series.length = N * MAX_LIMIT + k ∧
      List.Pairwise (fun x y => x ≠ y) (res.calls.map (fun p => p.end_)) := by
  subst hM
  have hc1 : 1 ≤ N * MAX_LIMIT + k := by simp only [MAX_LIMIT]; omega
  have hE0 : a + ((N * MAX_LIMIT + k : Nat) : Int) - 1 ≠ 0 := by
    simp only [MAX_LIMIT] at hc1 ⊢
    omega
  have hcount : min (N * MAX_LIMIT + k)
      ((a + ((N * MAX_LIMIT + k : Nat) : Int) - 1 - a + 1).toNat) = N * MAX_LIMIT + k := by
    have h1 : (a + ((N * MAX_LIMIT + k : Nat) : Int) - 1 - a + 1).toNat =
        N * MAX_LIMIT + k := by
      simp only [MAX_LIMIT] at hc1 ⊢
      omega
    rw [h1, Nat.min_self]
  obtain ⟨nr, nc, hrun, hlenr, hlenc, hbound, hchain⟩ :=
    uniform_loop_run a (N * MAX_LIMIT + k) ha category symbol interval N k fuel
      (a + ((N * MAX_LIMIT + k : Nat) : Int) - 1) [] [] hk1 hk2 hfuel hE0 hcount
  rw [List.nil_append, List.nil_append] at hrun
  have hne : nr ≠ [] := by
    intro h
    rw [h] at hlenr
    simp only [List.length_nil, MAX_LIMIT] at hlenr
    omega
  have hassemble : assemble none nr = List.insertionSort rowLe nr := by
    unfold assemble
    rw [if_neg (by simp [isEmpty_false_of_ne hne])]
    rw [if_neg (by simp [truthyOpt])]
  refine ⟨⟨assemble none nr, nc⟩, ?_, hlenc, ?_, ?_⟩
  · unfold get_ohlcv
    rw [if_neg hsym, if_neg hint, if_neg (not_not_intro hcat)]
    rw [show resolveStart none = .ok none from rfl]
    simp only
    rw [show resolveEnd none (a + ((N * MAX_LIMIT + k : Nat) : Int) - 1) =
      .ok (a + ((N * MAX_LIMIT + k : Nat) : Int) - 1) from rfl]
    simp only
    rw [hrun]
  · show (assemble none nr).length = N * MAX_LIMIT + k
    rw [hassemble, (List.perm_insertionSort rowLe nr).length_eq, hlenr]
  · show List.Pairwise (fun x y => x ≠ y) (nc.map (fun p => p.end_))
    refine (List.chain'_iff_pairwise.mp hchain).imp ?_
    intro x y hop
    obtain ⟨u, v, rfl, rfl, huv⟩ := hop
    intro heq
    rcases heq with ⟨rfl⟩
    omega

/-- Witness for C5 at N = 1, k = 1: one full page of 1000 rows then a short
page of one row. -/
theorem C5_pagination_page_count_witness :
    ∃ res, get_ohlcv (uniformProvider 2 (1 * MAX_LIMIT + 1)) 2 "BTCUSDT" "1" none none "spot"
        (2 + ((1 * MAX_LIMIT + 1 : Nat) : Int) - 1) = .ok (some res) ∧
      res.calls.length = 1 + 1 ∧
      res.series.length = 1 * MAX_LIMIT + 1 ∧
      List.Pairwise (fun x y => x ≠ y) (res.calls.map (fun p => p.end_)) :=
  C5_pagination_page_count 2 (1 * MAX_LIMIT + 1) 1 1 2 "BTCUSDT" "1" "spot"
    (by decide) rfl (by decide) (by decide) (by decide) (by decide) (by decide) (by decide)

/-- C6: when the first page's oldest row timestamp exactly equals the
resolved start, the loop terminates on that page and the boundary row is kept
in the final series — the lower bound is inclusive. -/
theorem C6_inclusive_lower_bound
    {provider : FetchParams → Except Err (List Row)} {fuel : Nat}
    {symbol interval category : String} {start_date end_date : Option String}
    {now endTs s : Int} {data : List Row} {lst : Row}
    (hp : HonestProvider provider)
    (hsym : symbol ≠ "") (hint : interval ≠ "") (hcat : category ∈ valid_categories)
    (hst : resolveStart start_date = .ok (some s))
    (hend : resolveEnd end_date now = .ok endTs)
    (hdata : provider (mkParams category symbol interval (some s) endTs) = .ok data)
    (hlast : data.getLast? = some lst) (hts : lst.ts = s) :
    ∃ res, get_ohlcv provider (fuel + 1) symbol interval start_date end_date category now =
        .ok (some res) ∧
      res.calls.length = 1 ∧ ∃ r ∈ res.series, r.ts = s := by
  have hneD : data ≠ [] := by
    intro h
    subst h
    simp at hlast
  have hgl : data.getLastD default = lst := by
    rw [List.getLastD_eq_getLast?, hlast]
    rfl
  have hlstmem : lst ∈ data := by
    have := getLastD_mem data default hneD
    rwa [hgl] at this
  have hs2 : 2 ≤ s := by
    obtain ⟨_, hpos, _⟩ := hp _ data hdata
    have := hpos lst hlstmem
    omega
  have hloop : fetchLoop provider category symbol interval (some s) (fuel + 1) endTs [] [] =
      .ok (some ⟨data, [mkParams category symbol interval (some s) endTs]⟩) := by
    simp only [fetchLoop, hdata]
    simp only [isEmpty_false_of_ne hneD, Bool.false_eq_true, if_false]
    have h1 : truthyOpt (some s) = true := by
      simp only [truthyOpt]
      simpa using by omega
    have h2 : decide ((data.getLastD default).ts ≤ (Option.some s).getD 0) = true := by
      rw [hgl, hts]
      simp
    rw [h1, h2]
    simp
  refine ⟨⟨assemble (some s) data, [mkParams category symbol interval (some s) endTs]⟩,
    ?_, rfl, ?_⟩
  · unfold get_ohlcv
    rw [if_neg hsym, if_neg hint, if_neg (not_not_intro hcat), hst]
    simp only
    rw [hend]
    simp only
    rw [hloop]
  · refine ⟨lst, ?_, hts⟩
    refine mem_assemble_of hlstmem ?_
    rw [hts]
    simp

/-- Witness for C6: an honest three-candle provider whose oldest candle sits
exactly on the requested start day. -/
theorem C6_inclusive_lower_bound_witness :
    ∃ res, get_ohlcv (uniformProvider 86400000 3) 1 "BTCUSDT" "1"
        (some "1970-01-02") (some "1970-01-03") "spot" 0 = .ok (some res) ∧
      res.calls.length = 1 ∧ ∃ r ∈ res.series, r.ts = 86400000 := by
  have h := @C6_inclusive_lower_bound (uniformProvider 86400000 3) 0
    "BTCUSDT" "1" "spot" (some "1970-01-02") (some "1970-01-03") 0 172800000 86400000
    [Row.mk 86400002 [], Row.mk 86400001 [], Row.mk 86400000 []] (Row.mk 86400000 [])
    (uniformProvider_honest 86400000 3 (by decide))
    (by decide) (by decide) (by decide) (by decide) (by decide) (by decide)
    (by decide) (by decide)
  exact h

theorem parse_error_validation {s : String} {e : Err}
    (h : _parse_date_to_timestamp s = .error e) : ∃ m, e = .validationError m := by
  simp only [_parse_date_to_timestamp] at h
  split at h
  · split at h
    · exact absurd h (by simp)
    · rcases h with ⟨rfl⟩
      exact ⟨_, rfl⟩
  · rcases h with ⟨rfl⟩
    exact ⟨_, rfl⟩

theorem resolveEnd_error {ed : Option String} {now : Int} {e : Err}
    (h : resolveEnd ed now = .error e) : ∃ m, e = .validationError m := by
  unfold resolveEnd at h
  split at h
  · exact parse_error_validation h
  · exact absurd h (by simp)

/-- C8: if the very first page call returns zero rows, `get_ohlcv` returns an
empty series (with exactly the one call issued) and raises no error. -/
theorem C8_empty_first_page
    {provider : FetchParams → Except Err (List Row)} {fuel : Nat}
    {symbol interval category : String} {start_date end_date : Option String}
    {now endTs : Int} {startTs : Option Int}
    (hsym : symbol ≠ "") (hint : interval ≠ "") (hcat : category ∈ valid_categories)
    (hst : resolveStart start_date = .ok startTs)
    (hend : resolveEnd end_date now = .ok endTs)
    (hdata : provider (mkParams category symbol interval startTs endTs) = .ok []) :
    get_ohlcv provider (fuel + 1) symbol interval start_date end_date category now =
      .ok (some ⟨[], [mkParams category symbol interval startTs endTs]⟩) := by
  have hloop : fetchLoop provider category symbol interval startTs (fuel + 1) endTs [] [] =
      .ok (some ⟨[], [mkParams category symbol interval startTs endTs]⟩) := by
    simp only [fetchLoop, hdata]
    simp
  unfold get_ohlcv
  rw [if_neg hsym, if_neg hint, if_neg (not_not_intro hcat), hst]
  simp only
  rw [hend]
  simp only
  rw [hloop]
  rfl

/-- Witness for C8: a provider with no data at all yields the empty series
without an error. -/
theorem C8_empty_first_page_witness :
    get_ohlcv (fun _ => .ok []) 1 "BTCUSDT" "1" none none "spot" 6 =
      .ok (some ⟨[], [FetchParams.mk "spot" "BTCUSDT" "1" 1000 none (some 6)]⟩) := by
  have h := @C8_empty_first_page (fun _ => .ok []) 0 "BTCUSDT" "1" "spot" none none 6 6 none
    (by decide) (by decide) (by decide) rfl rfl rfl
  exact h

/-- C9: `get_available_symbols` never raises: any transport error, non-zero
provider status, or decoding failure (missing symbol key) yields the empty
list, and on success it returns the provider's symbols sorted ascending. -/
theorem C9_symbols_never_raise
    (fetch : String → Except Err InstrumentsResp) (category : String) :
    (∀ e, fetch category = .error e → get_available_symbols fetch category = []) ∧
    (∀ resp, fetch category = .ok resp → resp.retCode ≠ 0 →
      get_available_symbols fetch category = []) ∧
    (∀ resp, fetch category = .ok resp → allSome resp.instruments = none →
      get_available_symbols fetch category = []) ∧
    (∀ resp symbols, fetch category = .ok resp → resp.retCode = 0 →
      allSome resp.instruments = some symbols →
      List.Perm (get_available_symbols fetch category) symbols ∧
      List.Sorted (fun a b : String => a ≤ b) (get_available_symbols fetch category)) := by
  refine ⟨?_, ?_, ?_, ?_⟩
  · intro e he
    simp [get_available_symbols, he]
  · intro resp hresp hrc
    simp [get_available_symbols, hresp, hrc]
  · intro resp hresp hnone
    by_cases hrc : resp.retCode = 0
    · simp [get_available_symbols, hresp, hrc, hnone]
    · simp [get_available_symbols, hresp, hrc]
  · intro resp symbols hresp hrc hsome
    have hval : get_available_symbols fetch category =
        List.insertionSort (fun a b : String => a ≤ b) symbols := by
      simp [get_available_symbols, hresp, hrc, hsome]
    rw [hval]
    exact ⟨List.perm_insertionSort _ symbols, List.sorted_insertionSort _ symbols⟩

/-- Witness for C9: a successful two-instrument listing comes back sorted and
as a permutation of the provider's symbols. -/
theorem C9_symbols_never_raise_witness :
    List.Perm
      (get_available_symbols
        (fun _ => .ok (InstrumentsResp.mk 0 "OK" [some "ETHUSDT", some "BTCUSDT"])) "spot")
      ["ETHUSDT", "BTCUSDT"] ∧
    List.Sorted (fun a b : String => a ≤ b)
      (get_available_symbols
        (fun _ => .ok (InstrumentsResp.mk 0 "OK" [some "ETHUSDT", some "BTCUSDT"])) "spot") :=
  (C9_symbols_never_raise
      (fun _ => .ok (InstrumentsResp.mk 0 "OK" [some "ETHUSDT", some "BTCUSDT"])) "spot").2.2.2
    (InstrumentsResp.mk 0 "OK" [some "ETHUSDT", some "BTCUSDT"])
    ["ETHUSDT", "BTCUSDT"] rfl rfl rfl

theorem fetchLoop_start_zero (provider : FetchParams → Except Err (List Row))
    (category symbol interval : String) :
    ∀ fuel ce all_data calls,
      fetchLoop provider category symbol interval (some 0) fuel ce all_data calls =
        fetchLoop provider category symbol interval none fuel ce all_data calls := by
  intro fuel
  induction fuel with
  | zero => intro ce all_data calls; rfl
  | succ fuel ih =>
    intro ce all_data calls
    have hmk : mkParams category symbol interval (some 0) ce =
        mkParams category symbol interval none ce := by
      unfold mkParams
      simp [truthyOpt]
    simp only [fetchLoop, hmk]
    cases hpv : provider (mkParams category symbol interval none ce) with
    | error e => rfl
    | ok data =>
      simp only
      by_cases hemp : data.isEmpty
      · simp [hemp]
      · simp only [hemp, Bool.false_eq_true, if_false]
        rw [show (truthyOpt (some 0) && decide ((data.getLastD default).ts ≤
            (Option.some (0 : Int)).getD 0)) = false from rfl]
        rw [show (truthyOpt none && decide ((data.getLastD default).ts ≤
            (Option.none : Option Int).getD 0)) = false from rfl]
        simp only [Bool.false_eq_true, if_false]
        by_cases hlen : data.length < MAX_LIMIT
        · simp [hlen]
        · rw [if_neg hlen, if_neg hlen]
          exact ih _ _ _

theorem assemble_start_zero (rows : List Row) :
    assemble (some 0) rows = assemble none rows := rfl

/-- C10: falsy date inputs are treated as absent — empty-string dates raise
no format error and behave exactly like omitted dates, and a `start_date` of
`"1970-01-01"` resolves to epoch-millisecond 0, which disables lower-bound
termination and filtering exactly as if no start were given. -/
theorem C10_falsy_dates
    (provider : FetchParams → Except Err (List Row)) (fuel : Nat)
    (symbol interval category : String) (start_date end_date : Option String) (now : Int) :
    get_ohlcv provider fuel symbol interval (some "") end_date category now =
      get_ohlcv provider fuel symbol interval none end_date category now ∧
    get_ohlcv provider fuel symbol interval start_date (some "") category now =
      get_ohlcv provider fuel symbol interval start_date none category now ∧
    _parse_date_to_timestamp "1970-01-01" = .ok 0 ∧
    get_ohlcv provider fuel symbol interval (some "1970-01-01") end_date category now =
      get_ohlcv provider fuel symbol interval none end_date category now := by
  refine ⟨?_, ?_, by decide, ?_⟩
  · unfold get_ohlcv
    rw [show resolveStart (some "") = resolveStart none from rfl]
  · unfold get_ohlcv
    rw [show resolveEnd (some "") now = resolveEnd none now from rfl]
  · unfold get_ohlcv
    rw [show resolveStart (some "1970-01-01") = .ok (some 0) from by decide,
        show resolveStart none = .ok none from rfl]
    by_cases h1 : symbol = ""
    · simp [h1]
    by_cases h2 : interval = ""
    · simp [h1, h2]
    by_cases h3 : category ∈ valid_categories
    case neg => simp [h1, h2, h3]
    case pos =>
      simp only [if_neg h1, if_neg h2, if_neg (not_not_intro h3)]
      cases hre : resolveEnd end_date now with
      | error e => rfl
      | ok endTs =>
        simp only
        rw [fetchLoop_start_zero]
        cases hl : fetchLoop provider category symbol interval none fuel endTs [] [] with
        | error e => rfl
        | ok o =>
          cases o with
          | none => rfl
          | some out =>
            simp only
            rw [assemble_start_zero]
